import Mathlib

/-!
Verification of the configdiff diff engine (package `diff`) against its
specification.  The definitions below are a shallow embedding of the Go
source: `Diff`, `diffNodes` (with the bodies of `diffObjects`, `diffArrays`
and `diffArrayAsSet` inlined at their call sites), `extractKey`, `canCoerce`,
`shouldIgnore`, `matchPath`, `matchSegments`, `joinPath`.
-/

namespace ConfigDiff

/-- The kind tag of a tree node (Go `tree.Kind`). -/
inductive Kind where
  | null
  | bool
  | number
  | string
  | object
  | array
deriving DecidableEq

/-- Modelled from the spec: the normalized tree `tree.Node` (spec §3; the
`tree` package source is not among the diff sources, only its use).  A node is
exactly one of six kinds; `Number` carries the 64-bit float value, modelled
here as an exact rational; `Object` carries a string-keyed mapping, modelled
as an association list standing for Go's map (key lookup below returns the
first binding, and key iteration deduplicates, so duplicate-key lists behave
like the map they stand for); `Array` is an ordered sequence.  A `nil`
pointer ("value absent") is modelled as `Option.none` at use sites. -/
inductive Node where
  | null : Node
  | bool (b : Bool) : Node
  | number (q : ℚ) : Node
  | string (s : String) : Node
  | object (fields : List (String × Node)) : Node
  | array (elems : List Node) : Node

/-- The `Kind` tag of a node. -/
def Node.kind : Node → Kind
  | .null => .null
  | .bool _ => .bool
  | .number _ => .number
  | .string _ => .string
  | .object _ => .object
  | .array _ => .array

/-- `ChangeType` categorizes the kind of change (Go string constants
`"add"`, `"remove"`, `"modify"`, `"move"`). -/
inductive ChangeType where
  | add
  | remove
  | modify
  | move
deriving DecidableEq

/-- A single detected change (Go `diff.Change`).  `type` is Go's field
`Type` (renamed: `Type` is reserved in Lean). -/
structure Change where
  type : ChangeType
  Path : String
  OldValue : Option Node := none
  NewValue : Option Node := none
  ArrayIndex : Int := 0

/-- Type-coercion toggles (Go `diff.Coercions`). -/
structure Coercions where
  NumericStrings : Bool := false
  BoolStrings : Bool := false
deriving DecidableEq

/-- Diff options (Go `diff.Options`).  `ArraySetKeys` is Go's
`map[string]string`, modelled as an association list; `coercions` is Go's
field `Coercions` (renamed to avoid shadowing the type name). -/
structure Options where
  IgnorePaths : List String := []
  ArraySetKeys : List (String × String) := []
  coercions : Coercions := {}
  StableOrder : Bool := false

mutual

/-- Size of a node, used as the termination measure of the differ. -/
def Node.nsize : Node → Nat
  | .null => 1
  | .bool _ => 1
  | .number _ => 1
  | .string _ => 1
  | .object fields => 1 + fieldsSize fields
  | .array elems => 1 + elemsSize elems

/-- Total size of an object's field list. -/
def fieldsSize : List (String × Node) → Nat
  | [] => 0
  | (_, v) :: rest => Node.nsize v + fieldsSize rest

/-- Total size of an array's element list. -/
def elemsSize : List Node → Nat
  | [] => 0
  | e :: rest => Node.nsize e + elemsSize rest

end

/-- Size of an optional node (`nil` counts 0). -/
def osize : Option Node → Nat
  | Option.none => 0
  | Option.some n => n.nsize

/-- Go map lookup on an object's field list (first binding wins). -/
def lookupField : List (String × Node) → String → Option Node
  | [], _ => none
  | (k', v) :: rest, k => if k' = k then some v else lookupField rest k

/-- Go map lookup on `ArraySetKeys`. -/
def lookupStr : List (String × String) → String → Option String
  | [], _ => none
  | (k', v) :: rest, k => if k' = k then some v else lookupStr rest k

/-- Go slice indexing `a.Array[i]` guarded by `i < len(a.Array)`. -/
def nth : List Node → Nat → Option Node
  | [], _ => none
  | e :: _, 0 => some e
  | _ :: rest, n + 1 => nth rest n

/-- `joinPath` joins path segments (Go `joinPath`). -/
def joinPath (base key : String) : String :=
  if base = "/" then "/" ++ key else base ++ "/" ++ key

/-- Go `strings.Trim(s, "/")` on the character list. -/
def trimSlash (cs : List Char) : List Char :=
  ((cs.dropWhile (· = '/')).reverse.dropWhile (· = '/')).reverse

/-- Go `strings.Split(s, "/")` on the character list (splitting the empty
string yields one empty segment, as in Go). -/
def splitSlash : List Char → List (List Char)
  | [] => [[]]
  | c :: rest =>
    match splitSlash rest with
    | [] => [[]]
    | s :: ss => if c = '/' then [] :: s :: ss else (c :: s) :: ss

/-- `strings.Split(strings.Trim(s, "/"), "/")` as in `matchPath`. -/
def pathSegments (s : String) : List String :=
  (splitSlash (trimSlash s.toList)).map fun cs => String.mk cs

/-- Go `strings.Join(segs, "/")`. -/
def joinSegments : List String → String
  | [] => ""
  | [s] => s
  | s :: rest@(_ :: _) => s ++ "/" ++ joinSegments rest

/-- `matchSegments` checks if path segments match pattern segments
(Go `matchSegments`). -/
def matchSegments : List String → List String → Bool
  | pathSegs, [] => pathSegs.isEmpty
  | [], p :: ps => (p :: ps).all fun q => q == "*"
  | x :: xs, p :: ps =>
    if p = "*" then
      if ps.isEmpty then true
      else matchSegments xs ps || matchSegments xs (p :: ps)
    else if x = p then matchSegments xs ps
    else false

/-- `matchPath` checks if a path matches a pattern (Go `matchPath`). -/
def matchPath (path pattern : String) : Bool :=
  let pathSegs := pathSegments path
  let patternSegs := pathSegments pattern
  if !(pattern.toList.contains '*') then
    ("/" ++ joinSegments pathSegs) == ("/" ++ joinSegments patternSegs)
  else
    matchSegments pathSegs patternSegs

/-- `shouldIgnore` checks if a path should be ignored (Go `shouldIgnore`). -/
def shouldIgnore (opts : Options) (path : String) : Bool :=
  opts.IgnorePaths.any fun pattern => matchPath path pattern

/-- Decimal digits to a natural number, most significant first. -/
def digitsToNat (cs : List Char) : Nat :=
  cs.foldl (fun n c => 10 * n + (c.toNat - 48)) 0

/-- Split a character list at the first `e`/`E` (exponent marker). -/
def splitExp : List Char → List Char × Option (List Char)
  | [] => ([], none)
  | c :: rest =>
    if c = 'e' ∨ c = 'E' then ([], some rest)
    else
      let (m, e) := splitExp rest
      (c :: m, e)

/-- Parse an unsigned decimal mantissa `digits[.digits]` (at least one digit
in total), returning its exact value. -/
def parseMantissa (cs : List Char) : Option ℚ :=
  let intPart := cs.takeWhile Char.isDigit
  let rest := cs.dropWhile Char.isDigit
  match rest with
  | [] => if intPart.isEmpty then none else some (digitsToNat intPart : ℚ)
  | '.' :: frac =>
    if frac.all Char.isDigit ∧ 0 < intPart.length + frac.length then
      some ((digitsToNat intPart : ℚ) + (digitsToNat frac : ℚ) / (10 : ℚ) ^ frac.length)
    else none
  | _ => none

/-- Parse an exponent part `[+|-]digits`. -/
def parseExp (cs : List Char) : Option Int :=
  let sd : Int × List Char :=
    match cs with
    | '+' :: r => (1, r)
    | '-' :: r => (-1, r)
    | r => (1, r)
  if sd.2.isEmpty then none
  else if sd.2.all Char.isDigit then some (sd.1 * (digitsToNat sd.2 : Int))
  else none

/-- Modelled from the spec: Go `strconv.ParseFloat(s, 64)` (standard library,
not part of the repository), restricted to the ordinary decimal forms
`[+|-] digits [. digits] [(e|E) [+|-] digits]` the spec's coercion rule is
about ("one side is `String` parseable as a floating-point number").  The
parsed value is kept exact as a rational; rounding to the nearest IEEE-754
double, hexadecimal floats, underscores, and the `Inf`/`NaN` spellings are
not modelled. -/
def parseGoFloat (s : String) : Option ℚ :=
  let cs := s.toList
  let sb : ℚ × List Char :=
    match cs with
    | '+' :: r => (1, r)
    | '-' :: r => (-1, r)
    | r => (1, r)
  if sb.2.isEmpty then none
  else
    let me := splitExp sb.2
    match parseMantissa me.1 with
    | none => none
    | some m =>
      match me.2 with
      | none => some (sb.1 * m)
      | some ecs =>
        match parseExp ecs with
        | none => none
        | some e =>
          if 0 ≤ e then some (sb.1 * m * (10 : ℚ) ^ e.toNat)
          else some (sb.1 * m / (10 : ℚ) ^ (-e).toNat)

/-- The `NumericStrings` section of Go `canCoerce`: `some r` when one of its
two `if` bodies returns `r`, `none` when control falls through. -/
def coerceNumeric (opts : Options) (a b : Node) : Option Bool :=
  if opts.coercions.NumericStrings then
    match a, b with
    | .string s, .number n => (parseGoFloat s).map fun num => decide (num = n)
    | .number n, .string s => (parseGoFloat s).map fun num => decide (n = num)
    | _, _ => none
  else none

/-- The `BoolStrings` section of Go `canCoerce`: `some r` when one of its
two `if` bodies returns `r`, `none` when control falls through. -/
def coerceBool (opts : Options) (a b : Node) : Option Bool :=
  if opts.coercions.BoolStrings then
    match a, b with
    | .string s, .bool v =>
      if s = "true" then some (v == true)
      else if s = "false" then some (v == false)
      else none
    | .bool v, .string s =>
      if s = "true" then some (v == true)
      else if s = "false" then some (v == false)
      else none
    | _, _ => none
  else none

/-- `canCoerce` checks if two nodes can be considered equal via coercion
(Go `canCoerce`): the numeric-string section runs first, then the
bool-string section, then `return false`. -/
def canCoerce (opts : Options) (a b : Node) : Bool :=
  match coerceNumeric opts a b with
  | some r => r
  | none =>
    match coerceBool opts a b with
    | some r => r
    | none => false

/-- `extractKey` extracts the key field value from an object node
(Go `extractKey`): empty string when the element is not an `Object` or has
no `String`-kind value at the key field. -/
def extractKey (node : Node) (keyField : String) : String :=
  match node with
  | .object fields =>
    match lookupField fields keyField with
    | some (.string s) => s
    | _ => ""
  | _ => ""

/-- One step of building a keyed-set map: `aMap[key] = elem` guarded by
`key != ""` (Go `diffArrayAsSet`, map-building loops). -/
def insertKV : List (String × Node) → String → Node → List (String × Node)
  | [], k, v => [(k, v)]
  | (k', v') :: rest, k, v =>
    if k' = k then (k, v) :: rest else (k', v') :: insertKV rest k v

/-- The loop body of the map-building loops of `diffArrayAsSet`. -/
def buildStep (keyField : String) (m : List (String × Node)) (e : Node) :
    List (String × Node) :=
  let k := extractKey e keyField
  if k ≠ "" then insertKV m k e else m

/-- The key→element map of one side of a keyed-set comparison
(Go `diffArrayAsSet`, first two loops; later elements overwrite earlier
ones with the same key, as in a Go map). -/
def buildKeyMap (elems : List Node) (keyField : String) : List (String × Node) :=
  elems.foldl (buildStep keyField) []

/-- Set insertion of one key (Go `allKeys[k] = true`). -/
def addKey (ks : List String) (k : String) : List String :=
  if k ∈ ks then ks else ks ++ [k]

/-- The key union of the two sides (Go `allKeys` map plus `keys` slice;
iteration order of the backing Go map is unspecified, modelled as
first-occurrence order). -/
def unionKeys (ka kb : List String) : List String :=
  (ka ++ kb).foldl addKey []

/-- Go `sort.Strings`. -/
def sortStrings (l : List String) : List String :=
  l.mergeSort fun a b => decide (a ≤ b)

/-- Go `sort.Slice(changes, func(i, j) { return changes[i].Path < changes[j].Path })`:
an unstable sort by `Path`, modelled as a mergesort by `Path` (some
`Path`-sorted permutation of the input, which is all the source guarantees). -/
def sortChanges (l : List Change) : List Change :=
  l.mergeSort fun c d => decide (c.Path ≤ d.Path)

/-! Size lemmas feeding the differ's termination measure. -/

theorem Node.one_le_nsize (n : Node) : 1 ≤ n.nsize := by
  cases n <;> simp [Node.nsize]

theorem lookupField_osize_le (fs : List (String × Node)) (k : String) :
    osize (lookupField fs k) ≤ fieldsSize fs := by
  induction fs with
  | nil => simp [lookupField, osize]
  | cons kv rest ih =>
    obtain ⟨k', v⟩ := kv
    by_cases h : k' = k
    · simp [lookupField, h, osize, fieldsSize]
    · simp only [lookupField, h, if_false, fieldsSize]
      omega

theorem nth_osize_le (l : List Node) (i : Nat) :
    osize (nth l i) ≤ elemsSize l := by
  induction l generalizing i with
  | nil => simp [nth, osize]
  | cons e rest ih =>
    cases i with
    | zero => simp [nth, osize, elemsSize]
    | succ j =>
      have := ih j
      simp only [nth, elemsSize]
      omega

theorem nsize_le_elemsSize {e : Node} {l : List Node} (h : e ∈ l) :
    e.nsize ≤ elemsSize l := by
  induction l with
  | nil => cases h
  | cons x rest ih =>
    rcases List.mem_cons.mp h with rfl | h'
    · simp only [elemsSize]; omega
    · have := ih h'
      simp only [elemsSize]; omega

theorem insertKV_mem {m : List (String × Node)} {k : String} {v : Node}
    {kv : String × Node} (h : kv ∈ insertKV m k v) : kv = (k, v) ∨ kv ∈ m := by
  induction m with
  | nil => simpa [insertKV] using h
  | cons kv' rest ih =>
    obtain ⟨k', v'⟩ := kv'
    by_cases hk : k' = k
    · simp only [insertKV, hk, if_true] at h
      rcases List.mem_cons.mp h with rfl | h'
      · exact Or.inl rfl
      · exact Or.inr (List.mem_cons_of_mem _ h')
    · simp only [insertKV, hk, if_false] at h
      rcases List.mem_cons.mp h with rfl | h'
      · exact Or.inr (List.mem_cons_self _ _)
      · rcases ih h' with h'' | h''
        · exact Or.inl h''
        · exact Or.inr (List.mem_cons_of_mem _ h'')

theorem foldl_buildStep_mem (kf : String) :
    ∀ (elems : List Node) (m : List (String × Node)) (kv : String × Node),
      kv ∈ elems.foldl (buildStep kf) m →
      kv ∈ m ∨ (kv.2 ∈ elems ∧ extractKey kv.2 kf = kv.1 ∧ kv.1 ≠ "") := by
  intro elems
  induction elems with
  | nil => intro m kv h; exact Or.inl h
  | cons e rest ih =>
    intro m kv h
    simp only [List.foldl_cons] at h
    rcases ih (buildStep kf m e) kv h with h' | h'
    · by_cases hk : extractKey e kf ≠ ""
      · rw [buildStep, if_pos hk] at h'
        rcases insertKV_mem h' with rfl | h''
        · exact Or.inr ⟨List.mem_cons_self _ _, rfl, hk⟩
        · exact Or.inl h''
      · rw [buildStep, if_neg hk] at h'
        exact Or.inl h'
    · exact Or.inr ⟨List.mem_cons_of_mem _ h'.1, h'.2⟩

theorem buildKeyMap_mem {elems : List Node} {kf : String} {kv : String × Node}
    (h : kv ∈ buildKeyMap elems kf) :
    kv.2 ∈ elems ∧ extractKey kv.2 kf = kv.1 ∧ kv.1 ≠ "" := by
  rcases foldl_buildStep_mem kf elems [] kv h with h' | h'
  · cases h'
  · exact h'

theorem lookupField_mem {m : List (String × Node)} {k : String} {v : Node}
    (h : lookupField m k = some v) : (k, v) ∈ m := by
  induction m with
  | nil => simp [lookupField] at h
  | cons kv rest ih =>
    obtain ⟨k', v'⟩ := kv
    by_cases hk : k' = k
    · subst hk
      simp only [lookupField, if_true] at h
      cases h
      exact List.mem_cons_self _ _
    · simp only [lookupField, hk, if_false] at h
      exact List.mem_cons_of_mem _ (ih h)

theorem buildKeyMap_lookup_osize_le (elems : List Node) (kf k : String) :
    osize (lookupField (buildKeyMap elems kf) k) ≤ elemsSize elems := by
  cases h : lookupField (buildKeyMap elems kf) k with
  | none => simp [osize]
  | some v =>
    have hm := buildKeyMap_mem (lookupField_mem h)
    simpa [osize] using nsize_le_elemsSize hm.1

/-- `diffNodes` compares two nodes at a given path (Go `diffNodes`, with the
bodies of `diffObjects`, `diffArrays` and `diffArrayAsSet` inlined at their
call sites; Go dispatches on `Kind` equality and then switches on the kind,
which is the same case split as this match on the two constructors). -/
def diffNodes (opts : Options) (a b : Option Node) (path : String) : List Change :=
  if shouldIgnore opts path then [] else
  match a, b with
  | none, none => []
  | none, some bb => [{ type := .add, Path := path, NewValue := some bb }]
  | some aa, none => [{ type := .remove, Path := path, OldValue := some aa }]
  | some aa, some bb =>
    match aa, bb with
    | .null, .null => []
    | .bool x, .bool y =>
      if x ≠ y then
        [{ type := .modify, Path := path, OldValue := some (.bool x), NewValue := some (.bool y) }]
      else []
    | .number x, .number y =>
      if x ≠ y then
        [{ type := .modify, Path := path, OldValue := some (.number x), NewValue := some (.number y) }]
      else []
    | .string x, .string y =>
      if x ≠ y then
        [{ type := .modify, Path := path, OldValue := some (.string x), NewValue := some (.string y) }]
      else []
    | .object fa, .object fb =>
      let keys := unionKeys (fa.map Prod.fst) (fb.map Prod.fst)
      let keys := if opts.StableOrder then sortStrings keys else keys
      keys.flatMap fun key =>
        diffNodes opts (lookupField fa key) (lookupField fb key) (joinPath path key)
    | .array ea, .array eb =>
      match lookupStr opts.ArraySetKeys path with
      | some keyField =>
        let aMap := buildKeyMap ea keyField
        let bMap := buildKeyMap eb keyField
        let keys := unionKeys (aMap.map Prod.fst) (bMap.map Prod.fst)
        let keys := if opts.StableOrder then sortStrings keys else keys
        keys.flatMap fun key =>
          diffNodes opts (lookupField aMap key) (lookupField bMap key)
            (path ++ "[" ++ keyField ++ "=" ++ key ++ "]")
      | none =>
        let maxLen := max ea.length eb.length
        (List.range maxLen).flatMap fun i =>
          diffNodes opts (nth ea i) (nth eb i) (path ++ "[" ++ toString i ++ "]")
    | _, _ =>
      if canCoerce opts aa bb then []
      else [{ type := .modify, Path := path, OldValue := some aa, NewValue := some bb }]
termination_by osize a + osize b
decreasing_by
  · have h1 := lookupField_osize_le fa key
    have h2 := lookupField_osize_le fb key
    have h3 : osize (some (Node.object fa)) = 1 + fieldsSize fa := by
      simp [osize, Node.nsize]
    have h4 : osize (some (Node.object fb)) = 1 + fieldsSize fb := by
      simp [osize, Node.nsize]
    omega
  · have h1 := buildKeyMap_lookup_osize_le ea keyField key
    have h2 := buildKeyMap_lookup_osize_le eb keyField key
    have h3 : osize (some (Node.array ea)) = 1 + elemsSize ea := by
      simp [osize, Node.nsize]
    have h4 : osize (some (Node.array eb)) = 1 + elemsSize eb := by
      simp [osize, Node.nsize]
    omega
  · have h1 := nth_osize_le ea i
    have h2 := nth_osize_le eb i
    have h3 : osize (some (Node.array ea)) = 1 + elemsSize ea := by
      simp [osize, Node.nsize]
    have h4 : osize (some (Node.array eb)) = 1 + elemsSize eb := by
      simp [osize, Node.nsize]
    omega

/-- `Diff` compares two trees and returns the detected changes (Go `Diff`);
the second component is the Go `error` result, which the source always
returns as `nil`. -/
def Diff (a b : Option Node) (opts : Options) : List Change × Option String :=
  let changes := diffNodes opts a b "/"
  let changes := if opts.StableOrder then sortChanges changes else changes
  (changes, none)

/-! Lemmas about key unions, sorting and coercion symmetry. -/

theorem mem_addKey {ks : List String} {k x : String} :
    x ∈ addKey ks k ↔ x ∈ ks ∨ x = k := by
  by_cases h : k ∈ ks
  · simp only [addKey, if_pos h]
    constructor
    · exact Or.inl
    · rintro (hx | rfl)
      · exact hx
      · exact h
  · simp [addKey, if_neg h]

theorem addKey_nodup {ks : List String} (h : ks.Nodup) (k : String) :
    (addKey ks k).Nodup := by
  by_cases hk : k ∈ ks
  · simpa [addKey, if_pos hk] using h
  · rw [addKey, if_neg hk]
    refine h.append (List.nodup_singleton k) ?_
    intro a ha hb
    rw [List.mem_singleton] at hb
    subst hb
    exact hk ha

theorem mem_foldl_addKey :
    ∀ (l acc : List String) (x : String), x ∈ l.foldl addKey acc ↔ x ∈ acc ∨ x ∈ l := by
  intro l
  induction l with
  | nil => simp
  | cons a rest ih =>
    intro acc x
    simp only [List.foldl_cons, ih, mem_addKey, List.mem_cons]
    tauto

theorem foldl_addKey_nodup :
    ∀ (l acc : List String), acc.Nodup → (l.foldl addKey acc).Nodup := by
  intro l
  induction l with
  | nil => exact fun acc h => h
  | cons a rest ih =>
    intro acc h
    exact ih _ (addKey_nodup h a)

theorem mem_unionKeys {ka kb : List String} {x : String} :
    x ∈ unionKeys ka kb ↔ x ∈ ka ∨ x ∈ kb := by
  simp [unionKeys, mem_foldl_addKey]

theorem unionKeys_nodup (ka kb : List String) : (unionKeys ka kb).Nodup :=
  foldl_addKey_nodup _ _ List.nodup_nil

theorem unionKeys_comm_perm (ka kb : List String) :
    (unionKeys kb ka).Perm (unionKeys ka kb) := by
  rw [List.perm_ext_iff_of_nodup (unionKeys_nodup kb ka) (unionKeys_nodup ka kb)]
  intro x
  simp only [mem_unionKeys]
  tauto

theorem sortStrings_perm (l : List String) : (sortStrings l).Perm l :=
  List.mergeSort_perm l _

theorem sortChanges_perm (l : List Change) : (sortChanges l).Perm l :=
  List.mergeSort_perm l _

theorem sortIf_perm (st : Bool) (l : List String) :
    (if st then sortStrings l else l).Perm l := by
  cases st
  · simp
  · simpa using sortStrings_perm l

theorem coerceNumeric_comm (opts : Options) (a b : Node) :
    coerceNumeric opts a b = coerceNumeric opts b a := by
  have hswap : ∀ n : ℚ, (fun num : ℚ => decide (num = n)) = fun num => decide (n = num) := by
    intro n
    funext num
    exact decide_eq_decide.mpr eq_comm
  cases a <;> cases b <;> simp only [coerceNumeric] <;> try rfl
  all_goals simp only [hswap]

theorem coerceBool_comm (opts : Options) (a b : Node) :
    coerceBool opts a b = coerceBool opts b a := by
  cases a <;> cases b <;> simp [coerceBool]

theorem canCoerce_comm (opts : Options) (a b : Node) :
    canCoerce opts a b = canCoerce opts b a := by
  rw [canCoerce, canCoerce, coerceNumeric_comm, coerceBool_comm]

/-! Lemmas about positional indexing. -/

theorem nth_eq_none {l : List Node} {i : Nat} (h : l.length ≤ i) : nth l i = none := by
  induction l generalizing i with
  | nil => cases i <;> simp [nth]
  | cons e rest ih =>
    cases i with
    | zero => simp at h
    | succ j => exact ih (by simpa using h)

theorem nth_eq_some {l : List Node} {i : Nat} (h : i < l.length) :
    nth l i = some (l.get ⟨i, h⟩) := by
  induction l generalizing i with
  | nil => simp at h
  | cons e rest ih =>
    cases i with
    | zero => simp [nth]
    | succ j => simpa [nth] using ih (by simpa using h)

/-! The differ never reports anything on a pair of equal sides. -/

theorem diffNodes_self_aux (opts : Options) :
    ∀ (n : Nat) (x : Option Node) (path : String), osize x ≤ n →
      diffNodes opts x x path = [] := by
  intro n
  induction n with
  | zero =>
    intro x path h
    have hx : x = none := by
      cases x with
      | none => rfl
      | some nd =>
        have := Node.one_le_nsize nd
        simp only [osize] at h
        omega
    subst hx
    simp [diffNodes]
  | succ n ih =>
    intro x path h
    cases x with
    | none => simp [diffNodes]
    | some nd =>
      cases nd with
      | null => simp [diffNodes]
      | bool b => simp [diffNodes]
      | number q => simp [diffNodes]
      | string s => simp [diffNodes]
      | object fields =>
        have hsz : osize (some (Node.object fields)) = 1 + fieldsSize fields := by
          simp [osize, Node.nsize]
        simp only [diffNodes]
        split
        · rfl
        · refine List.flatMap_eq_nil_iff.mpr fun key _ => ih _ _ ?_
          have := lookupField_osize_le fields key
          omega
      | array elems =>
        have hsz : osize (some (Node.array elems)) = 1 + elemsSize elems := by
          simp [osize, Node.nsize]
        simp only [diffNodes]
        split
        · rfl
        · cases hask : lookupStr opts.ArraySetKeys path with
          | some kf =>
            simp only [hask]
            refine List.flatMap_eq_nil_iff.mpr fun key _ => ih _ _ ?_
            have := buildKeyMap_lookup_osize_le elems kf key
            omega
          | none =>
            simp only [hask]
            refine List.flatMap_eq_nil_iff.mpr fun i _ => ih _ _ ?_
            have := nth_osize_le elems i
            omega

theorem diffNodes_self (opts : Options) (x : Option Node) (path : String) :
    diffNodes opts x x path = [] :=
  diffNodes_self_aux opts (osize x) x path le_rfl

/-! Operand symmetry: swapping the two trees turns every `Add` into a
`Remove` (and vice versa) at the same path, and swaps the values of every
`Modify`. -/

/-- The mirror image of a change under swapping the two diff operands. -/
def swapChange (c : Change) : Change :=
  { type :=
      match c.type with
      | .add => .remove
      | .remove => .add
      | t => t
    Path := c.Path
    OldValue := c.NewValue
    NewValue := c.OldValue
    ArrayIndex := c.ArrayIndex }

theorem swapChange_involutive (c : Change) : swapChange (swapChange c) = c := by
  obtain ⟨t, p, o, v, i⟩ := c
  cases t <;> rfl


/-! Clean unfolding equations for `diffNodes`, one per case of the source's
control flow. -/

theorem diffNodes_ignored (opts : Options) (a b : Option Node) (path : String)
    (hig : shouldIgnore opts path = true) : diffNodes opts a b path = [] := by
  rw [diffNodes.eq_def]
  simp [hig]

theorem diffNodes_nil_nil (opts : Options) (path : String) :
    diffNodes opts none none path = [] := by
  rw [diffNodes.eq_1]
  exact ite_self _

theorem diffNodes_add (opts : Options) (bb : Node) (path : String)
    (hig : shouldIgnore opts path = false) :
    diffNodes opts none (some bb) path =
      [{ type := .add, Path := path, NewValue := some bb }] := by
  rw [diffNodes.eq_2]
  simp [hig]

theorem diffNodes_remove (opts : Options) (aa : Node) (path : String)
    (hig : shouldIgnore opts path = false) :
    diffNodes opts (some aa) none path =
      [{ type := .remove, Path := path, OldValue := some aa }] := by
  rw [diffNodes.eq_3]
  simp [hig]

theorem diffNodes_null (opts : Options) (path : String) :
    diffNodes opts (some .null) (some .null) path = [] := by
  rw [diffNodes.eq_4]
  exact ite_self _

theorem diffNodes_bool (opts : Options) (x y : Bool) (path : String)
    (hig : shouldIgnore opts path = false) :
    diffNodes opts (some (.bool x)) (some (.bool y)) path =
      if x ≠ y then
        [{ type := .modify, Path := path, OldValue := some (.bool x), NewValue := some (.bool y) }]
      else [] := by
  rw [diffNodes.eq_5]
  simp [hig]

theorem diffNodes_number (opts : Options) (x y : ℚ) (path : String)
    (hig : shouldIgnore opts path = false) :
    diffNodes opts (some (.number x)) (some (.number y)) path =
      if x ≠ y then
        [{ type := .modify, Path := path, OldValue := some (.number x), NewValue := some (.number y) }]
      else [] := by
  rw [diffNodes.eq_6]
  simp [hig]

theorem diffNodes_string (opts : Options) (x y : String) (path : String)
    (hig : shouldIgnore opts path = false) :
    diffNodes opts (some (.string x)) (some (.string y)) path =
      if x ≠ y then
        [{ type := .modify, Path := path, OldValue := some (.string x), NewValue := some (.string y) }]
      else [] := by
  rw [diffNodes.eq_7]
  simp [hig]

theorem diffNodes_object (opts : Options) (fa fb : List (String × Node)) (path : String)
    (hig : shouldIgnore opts path = false) :
    diffNodes opts (some (.object fa)) (some (.object fb)) path =
      (if opts.StableOrder then sortStrings (unionKeys (fa.map Prod.fst) (fb.map Prod.fst))
       else unionKeys (fa.map Prod.fst) (fb.map Prod.fst)).flatMap fun key =>
        diffNodes opts (lookupField fa key) (lookupField fb key) (joinPath path key) := by
  rw [diffNodes.eq_8]
  simp [hig]

theorem diffNodes_array_set (opts : Options) (ea eb : List Node) (path kf : String)
    (hig : shouldIgnore opts path = false)
    (hask : lookupStr opts.ArraySetKeys path = some kf) :
    diffNodes opts (some (.array ea)) (some (.array eb)) path =
      (if opts.StableOrder then
        sortStrings (unionKeys ((buildKeyMap ea kf).map Prod.fst) ((buildKeyMap eb kf).map Prod.fst))
       else
        unionKeys ((buildKeyMap ea kf).map Prod.fst) ((buildKeyMap eb kf).map Prod.fst)).flatMap
        fun key =>
          diffNodes opts (lookupField (buildKeyMap ea kf) key) (lookupField (buildKeyMap eb kf) key)
            (path ++ "[" ++ kf ++ "=" ++ key ++ "]") := by
  rw [diffNodes.eq_9]
  simp [hig, hask]

theorem diffNodes_array_pos (opts : Options) (ea eb : List Node) (path : String)
    (hig : shouldIgnore opts path = false)
    (hask : lookupStr opts.ArraySetKeys path = none) :
    diffNodes opts (some (.array ea)) (some (.array eb)) path =
      (List.range (max ea.length eb.length)).flatMap fun i =>
        diffNodes opts (nth ea i) (nth eb i) (path ++ "[" ++ toString i ++ "]") := by
  rw [diffNodes.eq_9]
  simp [hig, hask]

theorem diffNodes_mismatch (opts : Options) (path : String) (aa bb : Node)
    (hk : aa.kind ≠ bb.kind) :
    diffNodes opts (some aa) (some bb) path =
      if shouldIgnore opts path then []
      else if canCoerce opts aa bb then []
      else [{ type := .modify, Path := path, OldValue := some aa, NewValue := some bb }] := by
  refine diffNodes.eq_10 opts path aa bb ?_ ?_ ?_ ?_ ?_ ?_
  · intro h1 h2
    exact hk (by subst h1; subst h2; simp [Node.kind])
  · intro x y h1 h2
    exact hk (by subst h1; subst h2; simp [Node.kind])
  · intro x y h1 h2
    exact hk (by subst h1; subst h2; simp [Node.kind])
  · intro x y h1 h2
    exact hk (by subst h1; subst h2; simp [Node.kind])
  · intro fa fb h1 h2
    exact hk (by subst h1; subst h2; simp [Node.kind])
  · intro ea eb h1 h2
    exact hk (by subst h1; subst h2; simp [Node.kind])

theorem perm_flatMap_swap {α : Type} {keysB keysA : List α} (hperm : keysB.Perm keysA)
    {f g : α → List Change} (hpt : ∀ k, (g k).Perm ((f k).map swapChange)) :
    (keysB.flatMap g).Perm ((keysA.flatMap f).map swapChange) := by
  refine ((hperm.flatMap_right g).trans
    (List.Perm.flatMap_left _ fun k _ => hpt k)).trans ?_
  rw [List.map_flatMap]

theorem sortIf_unionKeys_comm_perm (st : Bool) (ka kb : List String) :
    (if st then sortStrings (unionKeys kb ka) else unionKeys kb ka).Perm
      (if st then sortStrings (unionKeys ka kb) else unionKeys ka kb) :=
  ((sortIf_perm st _).trans (unionKeys_comm_perm ka kb)).trans (sortIf_perm st _).symm

theorem diffNodes_swap_aux (opts : Options) :
    ∀ (n : Nat) (a b : Option Node) (path : String), osize a + osize b ≤ n →
      (diffNodes opts b a path).Perm ((diffNodes opts a b path).map swapChange) := by
  intro n
  induction n with
  | zero =>
    intro a b path h
    have h1 : ∀ y : Option Node, osize y = 0 → y = none := by
      intro y hy
      cases y with
      | none => rfl
      | some nd =>
        have := Node.one_le_nsize nd
        simp only [osize] at hy
        omega
    rw [h1 a (by omega), h1 b (by omega), diffNodes_nil_nil]
    simp
  | succ n ih =>
    intro a b path h
    cases hig : shouldIgnore opts path with
    | true =>
      rw [diffNodes_ignored opts b a path hig, diffNodes_ignored opts a b path hig]
      simp
    | false =>
      cases a with
      | none =>
        cases b with
        | none =>
          rw [diffNodes_nil_nil]
          simp
        | some bb =>
          rw [diffNodes_remove opts bb path hig, diffNodes_add opts bb path hig]
          simp [swapChange]
      | some aa =>
        cases b with
        | none =>
          rw [diffNodes_add opts aa path hig, diffNodes_remove opts aa path hig]
          simp [swapChange]
        | some bb =>
          simp only [osize] at h
          by_cases hk : aa.kind = bb.kind
          · cases aa <;> cases bb <;> try (simp [Node.kind] at hk)
            · rw [diffNodes_null]
              simp
            · rename_i x y
              rw [diffNodes_bool opts y x path hig, diffNodes_bool opts x y path hig]
              by_cases hxy : x = y
              · subst hxy
                simp
              · simp [hxy, Ne.symm hxy, swapChange]
            · rename_i x y
              rw [diffNodes_number opts y x path hig, diffNodes_number opts x y path hig]
              by_cases hxy : x = y
              · subst hxy
                simp
              · simp [hxy, Ne.symm hxy, swapChange]
            · rename_i x y
              rw [diffNodes_string opts y x path hig, diffNodes_string opts x y path hig]
              by_cases hxy : x = y
              · subst hxy
                simp
              · simp [hxy, Ne.symm hxy, swapChange]
            · rename_i fa fb
              rw [diffNodes_object opts fb fa path hig, diffNodes_object opts fa fb path hig]
              refine perm_flatMap_swap (sortIf_unionKeys_comm_perm _ _ _) fun k => ?_
              apply ih
              have h1 := lookupField_osize_le fa k
              have h2 := lookupField_osize_le fb k
              simp only [Node.nsize] at h
              omega
            · rename_i ea eb
              cases hask : lookupStr opts.ArraySetKeys path with
              | some kf =>
                rw [diffNodes_array_set opts eb ea path kf hig hask,
                  diffNodes_array_set opts ea eb path kf hig hask]
                refine perm_flatMap_swap (sortIf_unionKeys_comm_perm _ _ _) fun k => ?_
                apply ih
                have h1 := buildKeyMap_lookup_osize_le ea kf k
                have h2 := buildKeyMap_lookup_osize_le eb kf k
                simp only [Node.nsize] at h
                omega
              | none =>
                rw [diffNodes_array_pos opts eb ea path hig hask,
                  diffNodes_array_pos opts ea eb path hig hask,
                  Nat.max_comm eb.length ea.length]
                refine perm_flatMap_swap (List.Perm.refl _) fun i => ?_
                apply ih
                have h1 := nth_osize_le ea i
                have h2 := nth_osize_le eb i
                simp only [Node.nsize] at h
                omega
          · rw [diffNodes_mismatch opts path bb aa (Ne.symm hk),
              diffNodes_mismatch opts path aa bb hk, canCoerce_comm, hig]
            cases hc : canCoerce opts aa bb with
            | true => simp [hc]
            | false => simp [hc, swapChange]

theorem diffNodes_swap (opts : Options) (a b : Option Node) (path : String) :
    (diffNodes opts b a path).Perm ((diffNodes opts a b path).map swapChange) :=
  diffNodes_swap_aux opts (osize a + osize b) a b path le_rfl

/-! The comparison algorithm only ever emits `add`, `remove` and `modify`. -/

theorem diffNodes_type_aux (opts : Options) :
    ∀ (n : Nat) (a b : Option Node) (path : String), osize a + osize b ≤ n →
      ∀ c ∈ diffNodes opts a b path,
        c.type = ChangeType.add ∨ c.type = ChangeType.remove ∨ c.type = ChangeType.modify := by
  intro n
  induction n with
  | zero =>
    intro a b path h
    have h1 : ∀ y : Option Node, osize y = 0 → y = none := by
      intro y hy
      cases y with
      | none => rfl
      | some nd =>
        have := Node.one_le_nsize nd
        simp only [osize] at hy
        omega
    rw [h1 a (by omega), h1 b (by omega), diffNodes_nil_nil]
    simp
  | succ n ih =>
    intro a b path h
    cases hig : shouldIgnore opts path with
    | true =>
      rw [diffNodes_ignored opts a b path hig]
      simp
    | false =>
      cases a with
      | none =>
        cases b with
        | none =>
          rw [diffNodes_nil_nil]
          simp
        | some bb =>
          rw [diffNodes_add opts bb path hig]
          simp
      | some aa =>
        cases b with
        | none =>
          rw [diffNodes_remove opts aa path hig]
          simp
        | some bb =>
          simp only [osize] at h
          by_cases hk : aa.kind = bb.kind
          · cases aa <;> cases bb <;> try (simp [Node.kind] at hk)
            · rw [diffNodes_null]
              simp
            · rename_i x y
              rw [diffNodes_bool opts x y path hig]
              split <;> simp
            · rename_i x y
              rw [diffNodes_number opts x y path hig]
              split <;> simp
            · rename_i x y
              rw [diffNodes_string opts x y path hig]
              split <;> simp
            · rename_i fa fb
              rw [diffNodes_object opts fa fb path hig]
              intro c hc
              obtain ⟨key, _, hmem⟩ := List.mem_flatMap.mp hc
              refine ih _ _ _ ?_ c hmem
              have h1 := lookupField_osize_le fa key
              have h2 := lookupField_osize_le fb key
              simp only [Node.nsize] at h
              omega
            · rename_i ea eb
              cases hask : lookupStr opts.ArraySetKeys path with
              | some kf =>
                rw [diffNodes_array_set opts ea eb path kf hig hask]
                intro c hc
                obtain ⟨key, _, hmem⟩ := List.mem_flatMap.mp hc
                refine ih _ _ _ ?_ c hmem
                have h1 := buildKeyMap_lookup_osize_le ea kf key
                have h2 := buildKeyMap_lookup_osize_le eb kf key
                simp only [Node.nsize] at h
                omega
              | none =>
                rw [diffNodes_array_pos opts ea eb path hig hask]
                intro c hc
                obtain ⟨i, _, hmem⟩ := List.mem_flatMap.mp hc
                refine ih _ _ _ ?_ c hmem
                have h1 := nth_osize_le ea i
                have h2 := nth_osize_le eb i
                simp only [Node.nsize] at h
                omega
          · rw [diffNodes_mismatch opts path aa bb hk, hig]
            split <;> simp

theorem diffNodes_type (opts : Options) (a b : Option Node) (path : String) :
    ∀ c ∈ diffNodes opts a b path,
      c.type = ChangeType.add ∨ c.type = ChangeType.remove ∨ c.type = ChangeType.modify :=
  diffNodes_type_aux opts (osize a + osize b) a b path le_rfl

/-! The spec's ignore-pattern matching rule, written from the spec's words,
and its relation to the source's `matchSegments`/`matchPath`. -/

/-- The spec's segment matching rule (spec §4.1, path-pattern matching):
a literal pattern segment must match the path segment exactly; a `*` that is
the pattern's last segment matches zero or more trailing path segments; a `*`
elsewhere matches one or more path segments, trying the remainder of the
pattern at each consumption length (backtracking). -/
def specMatchSegs : List String → List String → Bool
  | pathSegs, [] => pathSegs.isEmpty
  | [], p :: ps => p == "*" && ps.isEmpty
  | x :: xs, p :: ps =>
    if p = "*" then
      if ps.isEmpty then true
      else specMatchSegs xs ps || specMatchSegs xs (p :: ps)
    else if x = p then specMatchSegs xs ps
    else false

/-- The spec's path-pattern matching rule: both strings are split on `/` and
matched segment-by-segment (a pattern without any `*` segment then demands
exactly the path's segments, i.e. an exact full-path match). -/
def specMatchPath (path pattern : String) : Bool :=
  specMatchSegs (pathSegments path) (pathSegments pattern)

theorem specMatchSegs_nil_cons (p : String) (ps : List String) :
    specMatchSegs [] (p :: ps) = (p == "*" && ps.isEmpty) := by
  simp [specMatchSegs]

theorem specMatchSegs_cons_lit {p : String} (hp : p ≠ "*") (x : String)
    (xs ps : List String) :
    specMatchSegs (x :: xs) (p :: ps) =
      if x = p then specMatchSegs xs ps else false := by
  simp [specMatchSegs, hp]

theorem specMatchSegs_cons_star_last (x : String) (xs : List String) :
    specMatchSegs (x :: xs) ["*"] = true := by
  simp [specMatchSegs]

theorem specMatchSegs_cons_star (x q : String) (xs qs : List String) :
    specMatchSegs (x :: xs) ("*" :: q :: qs) =
      (specMatchSegs xs (q :: qs) || specMatchSegs xs ("*" :: q :: qs)) := by
  simp [specMatchSegs]

theorem matchSegments_nil_cons (p : String) (ps : List String) :
    matchSegments [] (p :: ps) = (p :: ps).all fun q => q == "*" := by
  simp [matchSegments]

theorem matchSegments_cons_lit {p : String} (hp : p ≠ "*") (x : String)
    (xs ps : List String) :
    matchSegments (x :: xs) (p :: ps) =
      if x = p then matchSegments xs ps else false := by
  simp [matchSegments, hp]

theorem matchSegments_cons_star_last (x : String) (xs : List String) :
    matchSegments (x :: xs) ["*"] = true := by
  simp [matchSegments]

theorem matchSegments_cons_star (x q : String) (xs qs : List String) :
    matchSegments (x :: xs) ("*" :: q :: qs) =
      (matchSegments xs (q :: qs) || matchSegments xs ("*" :: q :: qs)) := by
  simp [matchSegments]

theorem specMatchSegs_imp :
    ∀ (ss ps : List String), specMatchSegs ss ps = true → matchSegments ss ps = true := by
  intro ss
  induction ss with
  | nil =>
    intro ps h
    cases ps with
    | nil => simp [matchSegments]
    | cons p ps' =>
      rw [specMatchSegs_nil_cons] at h
      simp only [Bool.and_eq_true, beq_iff_eq, List.isEmpty_iff] at h
      obtain ⟨rfl, rfl⟩ := h
      simp [matchSegments]
  | cons x xs ih =>
    intro ps h
    cases ps with
    | nil => simp [specMatchSegs] at h
    | cons p ps' =>
      by_cases hp : p = "*"
      · subst hp
        cases ps' with
        | nil => exact matchSegments_cons_star_last x xs
        | cons q qs =>
          rw [specMatchSegs_cons_star] at h
          rw [matchSegments_cons_star]
          simp only [Bool.or_eq_true] at h ⊢
          rcases h with h | h
          · exact Or.inl (ih _ h)
          · exact Or.inr (ih _ h)
      · rw [specMatchSegs_cons_lit hp] at h
        rw [matchSegments_cons_lit hp]
        by_cases hx : x = p
        · rw [if_pos hx] at h
          rw [if_pos hx]
          exact ih _ h
        · rw [if_neg hx] at h
          exact absurd h (by simp)

theorem specMatchSegs_eq_of_no_star :
    ∀ (ss ps : List String), (∀ p ∈ ps, p ≠ "*") → specMatchSegs ss ps = true → ss = ps := by
  intro ss
  induction ss with
  | nil =>
    intro ps hps h
    cases ps with
    | nil => rfl
    | cons p ps' =>
      rw [specMatchSegs_nil_cons] at h
      simp only [Bool.and_eq_true, beq_iff_eq] at h
      exact absurd h.1 (hps p (List.mem_cons_self _ _))
  | cons x xs ih =>
    intro ps hps h
    cases ps with
    | nil => simp [specMatchSegs] at h
    | cons p ps' =>
      have hp : p ≠ "*" := hps p (List.mem_cons_self _ _)
      rw [specMatchSegs_cons_lit hp] at h
      by_cases hx : x = p
      · rw [if_pos hx] at h
        rw [hx, ih ps' (fun q hq => hps q (List.mem_cons_of_mem _ hq)) h]
      · rw [if_neg hx] at h
        exact absurd h (by simp)

theorem splitSlash_ne_nil : ∀ cs : List Char, splitSlash cs ≠ [] := by
  intro cs
  induction cs with
  | nil => simp [splitSlash]
  | cons c rest ih =>
    simp only [splitSlash]
    cases hr : splitSlash rest with
    | nil => simp
    | cons s ss =>
      by_cases hc : c = '/' <;> simp [hc]

theorem mem_of_mem_splitSlash :
    ∀ (cs : List Char) (seg : List Char), seg ∈ splitSlash cs → ∀ c ∈ seg, c ∈ cs := by
  intro cs
  induction cs with
  | nil =>
    intro seg hseg c hc
    simp only [splitSlash, List.mem_singleton] at hseg
    subst hseg
    cases hc
  | cons c0 rest ih =>
    intro seg hseg c hc
    rw [splitSlash] at hseg
    cases hr : splitSlash rest with
    | nil => exact absurd hr (splitSlash_ne_nil rest)
    | cons s ss =>
      rw [hr] at hseg
      have hseg' : seg ∈ if c0 = '/' then [] :: s :: ss else (c0 :: s) :: ss := hseg
      by_cases hc0 : c0 = '/'
      · rw [if_pos hc0] at hseg'
        rcases List.mem_cons.mp hseg' with rfl | hseg2
        · cases hc
        · exact List.mem_cons_of_mem _ (ih seg (hr ▸ hseg2) c hc)
      · rw [if_neg hc0] at hseg'
        rcases List.mem_cons.mp hseg' with rfl | hseg2
        · rcases List.mem_cons.mp hc with rfl | hc'
          · exact List.mem_cons_self _ _
          · exact List.mem_cons_of_mem _ (ih s (hr ▸ List.mem_cons_self _ _) c hc')
        · exact List.mem_cons_of_mem _ (ih seg (hr ▸ List.mem_cons_of_mem _ hseg2) c hc)

theorem mem_of_mem_trimSlash {cs : List Char} {c : Char} (h : c ∈ trimSlash cs) : c ∈ cs := by
  simp only [trimSlash, List.mem_reverse] at h
  have h1 : c ∈ (cs.dropWhile (· = '/')).reverse := (List.dropWhile_sublist _).mem h
  rw [List.mem_reverse] at h1
  exact (List.dropWhile_sublist _).mem h1

theorem pathSegments_no_star {pattern : String}
    (h : pattern.toList.contains '*' = false) :
    ∀ seg ∈ pathSegments pattern, seg ≠ "*" := by
  intro seg hseg hstar
  simp only [pathSegments, List.mem_map] at hseg
  obtain ⟨cs, hcs, rfl⟩ := hseg
  have : '*' ∈ cs := by
    have h2 : (String.mk cs).toList = "*".toList := by rw [hstar]
    simp only [String.toList] at h2
    rw [h2]
    exact List.mem_singleton.mpr rfl
  have hmem : '*' ∈ pattern.toList :=
    mem_of_mem_trimSlash (mem_of_mem_splitSlash _ cs hcs '*' this)
  have hc : pattern.toList.contains '*' = true :=
    List.contains_iff_exists_mem_beq.mpr ⟨'*', hmem, by simp⟩
  rw [hc] at h
  cases h

theorem specMatchPath_imp (path pattern : String)
    (h : specMatchPath path pattern = true) : matchPath path pattern = true := by
  rw [matchPath]
  cases hstar : pattern.toList.contains '*' with
  | false =>
    have heq := specMatchSegs_eq_of_no_star _ _ (pathSegments_no_star hstar) h
    simp [hstar, heq]
  | true =>
    simpa [hstar] using specMatchSegs_imp _ _ h

/-! Key-extraction and key-map membership (keyed-set arrays). -/

theorem extractKey_ne_empty_iff (e : Node) (kf : String) :
    extractKey e kf ≠ "" ↔
      ∃ (fields : List (String × Node)) (s : String),
        e = Node.object fields ∧ lookupField fields kf = some (.string s) ∧ s ≠ "" := by
  constructor
  · intro h
    cases e with
    | object fields =>
      cases hlk : lookupField fields kf with
      | none => simp [extractKey, hlk] at h
      | some v =>
        cases v with
        | string s => exact ⟨fields, s, rfl, hlk, by simpa [extractKey, hlk] using h⟩
        | null => simp [extractKey, hlk] at h
        | bool b => simp [extractKey, hlk] at h
        | number q => simp [extractKey, hlk] at h
        | object f2 => simp [extractKey, hlk] at h
        | array e2 => simp [extractKey, hlk] at h
    | null => simp [extractKey] at h
    | bool b => simp [extractKey] at h
    | number q => simp [extractKey] at h
    | string s => simp [extractKey] at h
    | array e2 => simp [extractKey] at h
  · rintro ⟨fields, s, rfl, hlk, hs⟩
    simpa [extractKey, hlk] using hs

theorem mem_map_fst_insertKV (m : List (String × Node)) (k : String) (v : Node) :
    k ∈ (insertKV m k v).map Prod.fst := by
  induction m with
  | nil => simp [insertKV]
  | cons kv rest ih =>
    obtain ⟨k', v'⟩ := kv
    by_cases hk : k' = k
    · simp [insertKV, hk]
    · simp only [insertKV, hk, if_false, List.map_cons, List.mem_cons]
      exact Or.inr ih

theorem mem_map_fst_insertKV_of_mem {m : List (String × Node)} {x : String}
    (h : x ∈ m.map Prod.fst) (k : String) (v : Node) :
    x ∈ (insertKV m k v).map Prod.fst := by
  induction m with
  | nil => cases h
  | cons kv rest ih =>
    obtain ⟨k', v'⟩ := kv
    by_cases hk : k' = k
    · subst hk
      simp only [List.map_cons, List.mem_cons] at h
      simpa [insertKV] using h
    · simp only [List.map_cons, List.mem_cons] at h
      simp only [insertKV, hk, if_false, List.map_cons, List.mem_cons]
      rcases h with rfl | h'
      · exact Or.inl rfl
      · exact Or.inr (ih h')

theorem mem_map_fst_foldl_buildStep (kf : String) :
    ∀ (elems : List Node) (m : List (String × Node)) (x : String),
      x ∈ m.map Prod.fst → x ∈ (elems.foldl (buildStep kf) m).map Prod.fst := by
  intro elems
  induction elems with
  | nil => intro m x h; exact h
  | cons e rest ih =>
    intro m x h
    simp only [List.foldl_cons]
    apply ih
    by_cases hk : extractKey e kf ≠ ""
    · rw [buildStep, if_pos hk]
      exact mem_map_fst_insertKV_of_mem h _ _
    · rwa [buildStep, if_neg hk]

theorem extractKey_mem_buildKeyMap (kf : String) :
    ∀ (elems : List Node) (e : Node), e ∈ elems → extractKey e kf ≠ "" →
      extractKey e kf ∈ (buildKeyMap elems kf).map Prod.fst := by
  have main : ∀ (elems : List Node) (m : List (String × Node)) (e : Node),
      e ∈ elems → extractKey e kf ≠ "" →
      extractKey e kf ∈ (elems.foldl (buildStep kf) m).map Prod.fst := by
    intro elems
    induction elems with
    | nil => intro m e h; cases h
    | cons e0 rest ih =>
      intro m e h hk
      rcases List.mem_cons.mp h with rfl | h'
      · simp only [List.foldl_cons]
        apply mem_map_fst_foldl_buildStep
        rw [buildStep, if_pos hk]
        exact mem_map_fst_insertKV m _ _
      · simp only [List.foldl_cons]
        exact ih _ e h' hk
  intro elems e h hk
  exact main elems [] e h hk

/-! Characterisation of the coercion rules. -/

theorem canCoerce_same_kind (opts : Options) (a b : Node) (hk : a.kind = b.kind) :
    canCoerce opts a b = false := by
  cases a <;> cases b <;> simp [Node.kind] at hk <;>
    simp [canCoerce, coerceNumeric, coerceBool]

theorem canCoerce_numeric_iff (opts : Options) (s : String) (q : ℚ)
    (hns : opts.coercions.NumericStrings = true) :
    (canCoerce opts (.string s) (.number q) = true ↔ parseGoFloat s = some q) := by
  cases hp : parseGoFloat s with
  | none =>
    simp only [canCoerce, coerceNumeric, hns, if_true, hp, Option.map_none']
    simp [coerceBool]
  | some x =>
    simp only [canCoerce, coerceNumeric, hns, if_true, hp, Option.map_some']
    constructor
    · intro h
      simp only [decide_eq_true_eq] at h
      rw [h]
    · intro h
      cases h
      simp

theorem canCoerce_numeric_off (opts : Options) (s : String) (q : ℚ)
    (hns : opts.coercions.NumericStrings = false) :
    canCoerce opts (.string s) (.number q) = false := by
  simp [canCoerce, coerceNumeric, coerceBool, hns]

theorem canCoerce_bool_iff (opts : Options) (s : String) (v : Bool)
    (hbs : opts.coercions.BoolStrings = true) :
    (canCoerce opts (.string s) (.bool v) = true ↔
      (s = "true" ∧ v = true) ∨ (s = "false" ∧ v = false)) := by
  have hnum : coerceNumeric opts (.string s) (.bool v) = none := by
    simp [coerceNumeric]
  rw [canCoerce, hnum]
  by_cases ht : s = "true"
  · simp [coerceBool, hbs, ht]
  · by_cases hf : s = "false"
    · simp [coerceBool, hbs, ht, hf]
    · simp [coerceBool, hbs, ht, hf]

theorem canCoerce_bool_off (opts : Options) (s : String) (v : Bool)
    (hbs : opts.coercions.BoolStrings = false) :
    canCoerce opts (.string s) (.bool v) = false := by
  simp [canCoerce, coerceNumeric, coerceBool, hbs]

theorem canCoerce_other (opts : Options) (a b : Node)
    (h1 : ¬(a.kind = Kind.string ∧ b.kind = Kind.number))
    (h2 : ¬(a.kind = Kind.number ∧ b.kind = Kind.string))
    (h3 : ¬(a.kind = Kind.string ∧ b.kind = Kind.bool))
    (h4 : ¬(a.kind = Kind.bool ∧ b.kind = Kind.string)) :
    canCoerce opts a b = false := by
  cases a <;> cases b <;>
    simp_all [Node.kind, canCoerce, coerceNumeric, coerceBool]

/-! Sortedness of the `StableOrder` output. -/

theorem sortChanges_sorted (l : List Change) :
    (sortChanges l).Pairwise fun c d => c.Path ≤ d.Path := by
  have h : (sortChanges l).Pairwise fun c d => decide (c.Path ≤ d.Path) = true :=
    List.sorted_mergeSort
      (fun a b c h1 h2 => by
        simp only [decide_eq_true_eq] at h1 h2 ⊢
        exact le_trans h1 h2)
      (fun a b => by
        simpa [Bool.or_eq_true, decide_eq_true_eq] using le_total a.Path b.Path)
      l
  exact h.imp fun hab => of_decide_eq_true hab

/-! Claim theorems. -/

/-- C1: `Diff(a, b, opts)` fails with an error only when called with
malformed Options, and never for well-formed normalized trees and
well-formed Options.  The source never constructs an error at all: for every
pair of trees (well-formed or not) and every Options value (malformed or
not) the returned Go `error` component is `nil`, so in particular a failure
can only happen under malformed Options (vacuously) and never after
traversal begins, and every well-formed call returns its change list with no
error. -/
theorem C1_diff_never_errors (a b : Option Node) (opts : Options) :
    (Diff a b opts).2 = none := rfl

/-- C2: reflexivity — for every tree `a` (including the absent tree) and
every Options value, `Diff(a, a, opts)` yields an empty change list (and no
error). -/
theorem C2_diff_reflexive (a : Option Node) (opts : Options) :
    Diff a a opts = ([], none) := by
  rw [Diff]
  simp [diffNodes_self, sortChanges]

/-- C3: symmetry of detection — `Diff(a, b)` reports an `Add` at path `P`
carrying value `v` (with the zero values the source leaves in the other
fields) iff `Diff(b, a)` reports a `Remove` at path `P` carrying the same
value `v`. -/
theorem C3_add_remove_symmetry (a b : Option Node) (opts : Options)
    (P : String) (v : Node) :
    ({ type := .add, Path := P, NewValue := some v } : Change) ∈ (Diff a b opts).1 ↔
      ({ type := .remove, Path := P, OldValue := some v } : Change) ∈ (Diff b a opts).1 := by
  have hiff : ∀ (x y : Option Node) (c : Change),
      c ∈ (Diff x y opts).1 ↔ c ∈ diffNodes opts x y "/" := by
    intro x y c
    show c ∈ (if opts.StableOrder then sortChanges (diffNodes opts x y "/")
        else diffNodes opts x y "/") ↔ _
    split
    · exact (sortChanges_perm _).mem_iff
    · exact Iff.rfl
  rw [hiff a b, hiff b a]
  have hswap := diffNodes_swap opts a b "/"
  have hval : swapChange ({ type := .add, Path := P, NewValue := some v } : Change) =
      { type := .remove, Path := P, OldValue := some v } := rfl
  constructor
  · intro hadd
    exact hswap.mem_iff.mpr (hval ▸ List.mem_map_of_mem swapChange hadd)
  · intro hrem
    obtain ⟨c, hc, hcs⟩ := List.mem_map.mp (hswap.mem_iff.mp hrem)
    have hc2 : c = swapChange ({ type := .remove, Path := P, OldValue := some v } : Change) := by
      have h2 := congrArg swapChange hcs
      rwa [swapChange_involutive] at h2
    rw [show (({ type := .add, Path := P, NewValue := some v } : Change)) =
        swapChange ({ type := .remove, Path := P, OldValue := some v } : Change) from rfl,
      ← hc2]
    exact hc

/-- C9: with `StableOrder` set, the change list returned by `Diff` is sorted
in ascending order by the `Path` field under lexicographic string order. -/
theorem C9_stable_order_sorted (a b : Option Node) (opts : Options)
    (hso : opts.StableOrder = true) :
    ((Diff a b opts).1).Pairwise (fun c d => c.Path ≤ d.Path) := by
  show ((if opts.StableOrder then sortChanges (diffNodes opts a b "/")
      else diffNodes opts a b "/")).Pairwise _
  rw [hso]
  simpa using sortChanges_sorted (diffNodes opts a b "/")

/-- C9 witness: the sortedness theorem applied at a concrete input with
`StableOrder` set. -/
theorem C9_stable_order_sorted_witness :
    ((Diff (some (.object [("b", .number 1), ("a", .number 2)]))
        (some (.object [("b", .number 3), ("a", .number 4)]))
        { StableOrder := true }).1).Pairwise (fun c d => c.Path ≤ d.Path) :=
  C9_stable_order_sorted _ _ _ rfl

/-- C10: no change returned by `Diff` ever has type `Move`: the comparison
algorithm only emits `Add`, `Remove` and `Modify`. -/
theorem C10_no_move (a b : Option Node) (opts : Options) (c : Change)
    (hc : c ∈ (Diff a b opts).1) : c.type ≠ ChangeType.move := by
  have hmem : c ∈ diffNodes opts a b "/" := by
    have hc2 : c ∈ (if opts.StableOrder then sortChanges (diffNodes opts a b "/")
        else diffNodes opts a b "/") := hc
    cases hso : opts.StableOrder with
    | false =>
      rw [hso] at hc2
      simpa using hc2
    | true =>
      rw [hso] at hc2
      simp only [if_pos rfl] at hc2
      exact (sortChanges_perm _).mem_iff.mp hc2
  rcases diffNodes_type opts a b "/" c hmem with h | h | h <;> simp [h]

/-- C10 witness: the no-`Move` theorem applied to the one change a concrete
kind-mismatch diff produces. -/
theorem C10_no_move_witness :
    ({ type := .modify, Path := "/", OldValue := some Node.null,
        NewValue := some (.bool true) } : Change) ∈
      (Diff (some Node.null) (some (.bool true)) {}).1 ∧
    ({ type := .modify, Path := "/", OldValue := some Node.null,
        NewValue := some (.bool true) } : Change).type ≠ ChangeType.move := by
  have hmem :
      ({ type := .modify, Path := "/", OldValue := some Node.null,
          NewValue := some (.bool true) } : Change) ∈
        (Diff (some Node.null) (some (.bool true)) {}).1 := by
    simp [Diff, diffNodes, shouldIgnore, canCoerce, coerceNumeric, coerceBool]
  exact ⟨hmem, C10_no_move _ _ _ _ hmem⟩

/-- C4: ignore-path suppression and the pattern-matching rule.  (i) At any
path the differ visits, a matched ignore pattern stops descent entirely:
`diffNodes` returns `[]` there, so no change is emitted for that path or
anything beneath it.  (ii) Every path/pattern pair that matches under the
spec's stated rules (literal segments exact; a trailing `*` zero or more
trailing segments; an embedded `*` one or more segments with backtracking;
no-`*` patterns an exact full path, the `specMatchPath` rendering of those
words) is matched by the source's `matchPath`.  (iii) `/status/*` matches
`/status`, `/status/x` and `/status/x/y` as the claim instances say.
(iv) The claim's example yields exactly one change, `Modify` at `/keep`. -/
theorem C4_ignore_paths :
    (∀ (opts : Options) (a b : Option Node) (path : String),
      shouldIgnore opts path = true → diffNodes opts a b path = []) ∧
    (∀ path pattern : String,
      specMatchPath path pattern = true → matchPath path pattern = true) ∧
    (matchPath "/status" "/status/*" = true ∧ matchPath "/status/x" "/status/*" = true ∧
      matchPath "/status/x/y" "/status/*" = true) ∧
    Diff (some (.object [("keep", .number 1), ("skip", .object [("x", .number 1)])]))
      (some (.object [("keep", .number 2), ("skip", .object [("x", .number 2)])]))
      { IgnorePaths := ["/skip/*"] } =
      ([{ type := .modify, Path := "/keep", OldValue := some (.number 1),
          NewValue := some (.number 2) }], none) := by
  refine ⟨fun opts a b path hig => diffNodes_ignored opts a b path hig,
    fun path pattern h => specMatchPath_imp path pattern h, by decide, ?_⟩
  simp [Diff, diffNodes, shouldIgnore, lookupField, unionKeys, addKey, joinPath, matchPath,
    pathSegments, trimSlash, splitSlash, matchSegments, joinSegments]

/-- C4 witness: suppression and the matching rule applied at concrete
inputs. -/
theorem C4_ignore_paths_witness :
    diffNodes { IgnorePaths := ["/skip/*"] } (some (.bool true)) (some (.bool false))
      "/skip/x" = [] ∧
    matchPath "/skip/x/y" "/skip/*" = true :=
  ⟨C4_ignore_paths.1 _ _ _ _ (by decide),
   C4_ignore_paths.2.1 "/skip/x/y" "/skip/*" (by decide)⟩

/-- C5 counterexample: the claim says every element that is an Object with a
String-kind value at the configured key field is entered into its side's
key map.  The element `{"name": ""}` is an Object with a String-kind value
at `"name"` (the empty string), yet the source's `key != ""` guard silently
drops it: the key map stays empty, and diffing against an empty array
produces no `Remove` (no changes at all) — so such an element does not
participate. -/
theorem C5_keyed_index_counterexample :
    lookupField [("name", Node.string "")] "name" = some (Node.string "") ∧
    (Node.object [("name", Node.string "")]).kind = Kind.object ∧
    buildKeyMap [Node.object [("name", Node.string "")]] "name" = [] ∧
    Diff (some (.array [.object [("name", .string "")]])) (some (.array []))
      { ArraySetKeys := [("/", "name")] } = ([], none) := by
  refine ⟨rfl, rfl, rfl, ?_⟩
  simp [Diff, diffNodes, shouldIgnore, lookupStr, buildKeyMap, buildStep, insertKV,
    extractKey, lookupField, unionKeys, addKey]

/-- C5 (amended): in key-addressed array comparison, every element that is
an Object with a *non-empty* String-kind value at the configured key field
has its key entered into its side's key-to-element map (and thus
participates in the key union); exactly the elements without such a
non-empty string key are silently excluded — every map entry comes from a
qualifying element, and `extractKey` is non-empty precisely on Objects with
a non-empty String-kind value at the key field. -/
theorem C5_keyed_index (kf : String) (elems : List Node) :
    (∀ e ∈ elems, extractKey e kf ≠ "" →
      extractKey e kf ∈ (buildKeyMap elems kf).map Prod.fst) ∧
    (∀ kv ∈ buildKeyMap elems kf,
      kv.2 ∈ elems ∧ extractKey kv.2 kf = kv.1 ∧ kv.1 ≠ "") ∧
    (∀ e : Node, extractKey e kf ≠ "" ↔
      ∃ fields s, e = Node.object fields ∧
        lookupField fields kf = some (.string s) ∧ s ≠ "") :=
  ⟨fun e he hk => extractKey_mem_buildKeyMap kf elems e he hk,
   fun kv hkv => buildKeyMap_mem hkv,
   fun e => extractKey_ne_empty_iff e kf⟩

/-- C5 witness: a qualifying element's key is in the built map. -/
theorem C5_keyed_index_witness :
    "p" ∈ (buildKeyMap [Node.object [("name", Node.string "p")]] "name").map Prod.fst := by
  have h := (C5_keyed_index "name" [Node.object [("name", Node.string "p")]]).1
    (Node.object [("name", Node.string "p")]) (List.mem_singleton.mpr rfl)
    (by simp [extractKey, lookupField])
  simpa [extractKey, lookupField] using h

/-- C6: coercion is consulted only on kind mismatch (it can never equate two
same-kind nodes), is symmetric in its operands; with `NumericStrings` a
String and a Number are coercion-equal iff the string parses as a float
whose value equals the number exactly (and never with the toggle off); with
`BoolStrings` a String and a Bool are coercion-equal iff the string is the
literal `"true"`/`"false"` matching the boolean (and never with the toggle
off); every other kind mismatch is never coercible; and the claim's example:
`"42"` vs `42` gives zero changes with `NumericStrings` and exactly one
`Modify` without it. -/
theorem C6_coercion :
    (∀ (opts : Options) (a b : Node), a.kind = b.kind → canCoerce opts a b = false) ∧
    (∀ (opts : Options) (a b : Node), canCoerce opts a b = canCoerce opts b a) ∧
    (∀ (opts : Options) (s : String) (q : ℚ), opts.coercions.NumericStrings = true →
      (canCoerce opts (.string s) (.number q) = true ↔ parseGoFloat s = some q)) ∧
    (∀ (opts : Options) (s : String) (q : ℚ), opts.coercions.NumericStrings = false →
      canCoerce opts (.string s) (.number q) = false) ∧
    (∀ (opts : Options) (s : String) (v : Bool), opts.coercions.BoolStrings = true →
      (canCoerce opts (.string s) (.bool v) = true ↔
        (s = "true" ∧ v = true) ∨ (s = "false" ∧ v = false))) ∧
    (∀ (opts : Options) (s : String) (v : Bool), opts.coercions.BoolStrings = false →
      canCoerce opts (.string s) (.bool v) = false) ∧
    (∀ (opts : Options) (a b : Node),
      ¬(a.kind = Kind.string ∧ b.kind = Kind.number) →
      ¬(a.kind = Kind.number ∧ b.kind = Kind.string) →
      ¬(a.kind = Kind.string ∧ b.kind = Kind.bool) →
      ¬(a.kind = Kind.bool ∧ b.kind = Kind.string) →
      canCoerce opts a b = false) ∧
    Diff (some (.string "42")) (some (.number 42))
      { coercions := { NumericStrings := true } } = ([], none) ∧
    Diff (some (.string "42")) (some (.number 42)) {} =
      ([{ type := .modify, Path := "/", OldValue := some (.string "42"),
          NewValue := some (.number 42) }], none) := by
  refine ⟨canCoerce_same_kind, canCoerce_comm,
    fun opts s q h => canCoerce_numeric_iff opts s q h,
    fun opts s q h => canCoerce_numeric_off opts s q h,
    fun opts s v h => canCoerce_bool_iff opts s v h,
    fun opts s v h => canCoerce_bool_off opts s v h,
    fun opts a b h1 h2 h3 h4 => canCoerce_other opts a b h1 h2 h3 h4, ?_, ?_⟩
  · simp [Diff, diffNodes, shouldIgnore, canCoerce, coerceNumeric, coerceBool,
      parseGoFloat, splitExp, parseMantissa, digitsToNat]
  · simp [Diff, diffNodes, shouldIgnore, canCoerce, coerceNumeric, coerceBool]

/-- C6 witness: the numeric coercion rule applied at `"42"` vs `42`. -/
theorem C6_coercion_witness :
    canCoerce { coercions := { NumericStrings := true } } (.string "42") (.number 42) = true :=
  (C6_coercion.2.2.1 { coercions := { NumericStrings := true } } "42" 42 rfl).mpr
    (by simp [parseGoFloat, splitExp, parseMantissa, digitsToNat])

/-- C7: positional array comparison — when the array's path has no
`ArraySetKeys` entry, the differ recurses on the pair at each index
`0..max(len a, len b)-1` at path `<parent>[<index>]`; an index beyond one
side's length is passed as the absent side, so (if not ignored) a tail
element produces exactly one `Add` (when the old side is short) or `Remove`
(when the new side is short); and the claim's example `["x"]` vs
`["x","y"]` yields exactly one `Add` at `/[1]` with value `"y"`. -/
theorem C7_positional_arrays :
    (∀ (opts : Options) (ea eb : List Node) (path : String),
      shouldIgnore opts path = false → lookupStr opts.ArraySetKeys path = none →
      diffNodes opts (some (.array ea)) (some (.array eb)) path =
        (List.range (max ea.length eb.length)).flatMap fun i =>
          diffNodes opts (nth ea i) (nth eb i) (path ++ "[" ++ toString i ++ "]")) ∧
    (∀ (opts : Options) (ea eb : List Node) (path : String) (i : Nat)
      (h1 : i < eb.length) (h2 : ea.length ≤ i),
      shouldIgnore opts (path ++ "[" ++ toString i ++ "]") = false →
      diffNodes opts (nth ea i) (nth eb i) (path ++ "[" ++ toString i ++ "]") =
        [{ type := .add, Path := path ++ "[" ++ toString i ++ "]",
            NewValue := some (eb.get ⟨i, h1⟩) }]) ∧
    (∀ (opts : Options) (ea eb : List Node) (path : String) (i : Nat)
      (h1 : i < ea.length) (h2 : eb.length ≤ i),
      shouldIgnore opts (path ++ "[" ++ toString i ++ "]") = false →
      diffNodes opts (nth ea i) (nth eb i) (path ++ "[" ++ toString i ++ "]") =
        [{ type := .remove, Path := path ++ "[" ++ toString i ++ "]",
            OldValue := some (ea.get ⟨i, h1⟩) }]) ∧
    Diff (some (.array [.string "x"])) (some (.array [.string "x", .string "y"])) {} =
      ([{ type := .add, Path := "/[1]", NewValue := some (.string "y") }], none) := by
  refine ⟨fun opts ea eb path hig hask => diffNodes_array_pos opts ea eb path hig hask,
    ?_, ?_, ?_⟩
  · intro opts ea eb path i h1 h2 hig
    rw [nth_eq_none h2, nth_eq_some h1, diffNodes_add _ _ _ hig]
  · intro opts ea eb path i h1 h2 hig
    rw [nth_eq_none h2, nth_eq_some h1, diffNodes_remove _ _ _ hig]
  · simp [Diff, diffNodes, shouldIgnore, lookupStr, nth, List.range_succ]
    decide

/-- C7 witness: the tail-`Add` equation applied at a concrete index beyond
the old side's length. -/
theorem C7_positional_arrays_witness :
    diffNodes {} (nth [] 0) (nth [Node.string "y"] 0) ("/" ++ "[" ++ toString 0 ++ "]") =
      [{ type := .add, Path := "/" ++ "[" ++ toString 0 ++ "]",
          NewValue := some (([Node.string "y"] : List Node).get ⟨0, by decide⟩) }] :=
  C7_positional_arrays.2.1 {} [] [Node.string "y"] "/" 0 (by decide) (by decide) (by decide)

/-- C8: key-addressed array comparison — when the array's exact path is
marked in `ArraySetKeys`, a key-to-element map is built per side, the key
union is computed (sorted when `StableOrder`), and for each key the matched
pair is compared recursively at `<parent>[<keyfield>=<keyvalue>]` with the
missing side passed as the nil sentinel; and the claim's example yields
exactly `Modify /[name=p]/v 1→2` and `Add /[name=q]` carrying the full
object. -/
theorem C8_keyed_arrays :
    (∀ (opts : Options) (ea eb : List Node) (path kf : String),
      shouldIgnore opts path = false → lookupStr opts.ArraySetKeys path = some kf →
      diffNodes opts (some (.array ea)) (some (.array eb)) path =
        (if opts.StableOrder then
          sortStrings (unionKeys ((buildKeyMap ea kf).map Prod.fst)
            ((buildKeyMap eb kf).map Prod.fst))
         else unionKeys ((buildKeyMap ea kf).map Prod.fst)
          ((buildKeyMap eb kf).map Prod.fst)).flatMap fun key =>
            diffNodes opts (lookupField (buildKeyMap ea kf) key)
              (lookupField (buildKeyMap eb kf) key)
              (path ++ "[" ++ kf ++ "=" ++ key ++ "]")) ∧
    Diff (some (.array [.object [("name", .string "p"), ("v", .number 1)]]))
      (some (.array [.object [("name", .string "p"), ("v", .number 2)],
                     .object [("name", .string "q"), ("v", .number 3)]]))
      { ArraySetKeys := [("/", "name")] } =
      ([{ type := .modify, Path := "/[name=p]/v", OldValue := some (.number 1),
          NewValue := some (.number 2) },
        { type := .add, Path := "/[name=q]",
          NewValue := some (.object [("name", .string "q"), ("v", .number 3)]) }],
       none) := by
  refine ⟨fun opts ea eb path kf hig hask =>
    diffNodes_array_set opts ea eb path kf hig hask, ?_⟩
  simp [Diff, diffNodes, shouldIgnore, lookupStr, lookupField, buildKeyMap, buildStep,
    insertKV, extractKey, unionKeys, addKey, joinPath]

/-- C8 witness: the keyed-comparison equation applied at a concrete marked
path. -/
theorem C8_keyed_arrays_witness :
    diffNodes { ArraySetKeys := [("/", "name")] } (some (.array [])) (some (.array [])) "/" =
      (if ({ ArraySetKeys := [("/", "name")] } : Options).StableOrder then
        sortStrings (unionKeys ((buildKeyMap [] "name").map Prod.fst)
          ((buildKeyMap [] "name").map Prod.fst))
       else unionKeys ((buildKeyMap [] "name").map Prod.fst)
        ((buildKeyMap [] "name").map Prod.fst)).flatMap fun key =>
          diffNodes { ArraySetKeys := [("/", "name")] }
            (lookupField (buildKeyMap [] "name") key)
            (lookupField (buildKeyMap [] "name") key)
            ("/" ++ "[" ++ "name" ++ "=" ++ key ++ "]") :=
  C8_keyed_arrays.1 { ArraySetKeys := [("/", "name")] } [] [] "/" "name"
    (by decide) (by decide)

end ConfigDiff
